import Mathlib

/-!
# Verification of listgen (src/main.rs)

A shallow embedding of the listgen question/answer list expander, together
with proofs about its dividers, the recursive variant expander, the pair
parser, the combiner and the sorter/formatter.

Strings are modelled as lists of characters (`Str`), matching the source's
character-by-character scans (`char_indices`); on the ASCII inputs the tool
processes, character positions and the source's byte offsets coincide.
`char::to_lowercase` and `char::is_whitespace` are modelled on the ASCII
range.  The `HashMap` accumulator of `main` is modelled as an association
list in key-insertion order; the sorter's output is proved independent of
that enumeration order.
-/

set_option linter.unusedVariables false

abbrev Str := List Char

/-- ASCII model of the char-wise lowercasing performed by `to_lowercase`. -/
def toLowerChar (c : Char) : Char :=
  if 65 ≤ c.toNat ∧ c.toNat ≤ 90 then Char.ofNat (c.toNat + 32) else c

/-- Lowercasing of a whole string (`str::to_lowercase`). -/
def toLowerStr (s : Str) : Str := s.map toLowerChar

/-- ASCII model of `char::is_whitespace`. -/
def isWs (c : Char) : Bool := c = ' ' || c = '\t' || c = '\n' || c = '\r'

/-- Model of `str::trim`: drop whitespace from both ends. -/
def trim (s : Str) : Str := ((s.dropWhile isWs).reverse.dropWhile isWs).reverse

/-- The slice `string[a..b]` of the source (character positions). -/
def strSlice (s : Str) (a b : Nat) : Str := (s.take b).drop a

/-- The loop of `divide_string`, with `s` the running start offset. -/
def divide_string_from (string : Str) (s : Nat) : List Nat → List Str
  | [] => [trim (strSlice string s string.length)]
  | e :: rest => trim (strSlice string s e) :: divide_string_from string (e + 1) rest

/-- `divide_string` from the source: cut `string` at the offsets `places`
(each cut character itself removed), trimming every piece. -/
def divide_string (string : Str) (places : List Nat) : List Str :=
  divide_string_from string 0 places

/-- `takeout_string` from the source: remove every character whose index lies
inside one of the (inclusive) ranges `places`. -/
def takeout_string (string : Str) (places : List (Nat × Nat)) : Str :=
  ((string.enum.filter
      (fun ic => ! places.any (fun p => decide (p.1 ≤ ic.1 ∧ ic.1 ≤ p.2)))).map (·.2))

/-- The scanning loop of `divide_slash`: `n` is the current character index
and `d` the running parenthesis depth (a signed counter, as in the source). -/
def slash_scan : List Char → Nat → Int → List Nat
  | [], _, _ => []
  | c :: cs, n, d =>
    if c = '(' then slash_scan cs (n + 1) (d + 1)
    else if c = ')' then slash_scan cs (n + 1) (d - 1)
    else if d = 0 ∧ c = '/' then n :: slash_scan cs (n + 1) d
    else slash_scan cs (n + 1) d

/-- `divide_slash` from the source: split at the slashes found at depth 0. -/
def divide_slash (input : Str) : List Str :=
  divide_string input (slash_scan input 0 0)

/-- The scanning loop of `divide_parenthesis`: records the (inclusive) range
of every top-level parenthetical group; `start` is the position of the last
opening parenthesis seen at depth 0 (initially 0, as in the source). -/
def paren_scan : List Char → Nat → Int → Nat → List (Nat × Nat)
  | [], _, _, _ => []
  | c :: cs, n, depth, start =>
    if c = '(' then
      paren_scan cs (n + 1) (depth + 1) (if depth = 0 then n else start)
    else if c = ')' then
      (if depth = 1 then [(start, n)] else []) ++ paren_scan cs (n + 1) (depth - 1) start
    else paren_scan cs (n + 1) depth start

/-- `divide_parenthesis` from the source: for input containing an opening
parenthesis, the original string followed by the string with all recorded
top-level groups removed and trimmed; otherwise the input alone, unchanged. -/
def divide_parenthesis (input : Str) : List Str :=
  if input.contains '(' then
    [input, trim (takeout_string input (paren_scan input 0 0 0))]
  else [input]

def MAX_DEPTH : Nat := 16

/-- The divider selected by the mode flag (the first step of `recurse_parts`). -/
def divide_mode (slash : Bool) (input : Str) : List Str :=
  if slash then divide_slash input else divide_parenthesis input

/-- `recurse_parts` with an explicit structural fuel.  The fuel is a proof
device only: on the fuel supplied by `recurse_parts` the zero-fuel branch is
unreachable, because recursion is cut off by the `depth >= MAX_DEPTH` check
(theorem `recurse_parts_fuel_irrel`). -/
def recurse_parts_fuel : Nat → Str → Bool → Nat → Bool → List Str
  | 0, input, slash, _, _ => divide_mode slash input
  | fuel + 1, input, slash, depth, keep_original =>
    if (divide_mode slash input).length = 1 ∨ MAX_DEPTH ≤ depth then
      divide_mode slash input
    else
      ((divide_mode slash input).map
          (fun p => recurse_parts_fuel fuel p (!slash) (depth + 1) keep_original)).flatten
        ++ (if depth = 0 then (if keep_original then [input] else []) else [input])

/-- `recurse_parts` from the source: split by the active divider; if the split
is trivial or the depth bound is reached, return it; otherwise recurse on
every part with the mode flipped, and append the unsplit input (always at
depth > 0, only under `keep_original` at depth 0). -/
def recurse_parts (input : Str) (slash : Bool) (depth : Nat) (keep_original : Bool) : List Str :=
  recurse_parts_fuel (MAX_DEPTH + 1 - depth) input slash depth keep_original

/-- Model of Rust `str::split` on a single separator character: always returns
at least one (possibly empty) piece. -/
def splitList : Str → Char → List Str
  | [], _ => [[]]
  | c :: cs, sep =>
    if c = sep then [] :: splitList cs sep
    else
      match splitList cs sep with
      | [] => [[c]]
      | h :: t => (c :: h) :: t

/-- Strip one trailing carriage return (the CR of a CRLF line ending). -/
def stripCR (s : Str) : Str :=
  match s.reverse with
  | '\r' :: rest => rest.reverse
  | _ => s

/-- Model of Rust `str::lines`: split on newlines, strip a carriage return
directly before each newline, and drop the final empty piece produced by a
trailing newline. -/
def rustLines (s : Str) : List Str :=
  (splitList s '\n').dropLast.map stripCR ++
    (if (splitList s '\n').getLast? = some [] then []
     else ((splitList s '\n').getLast?).toList)

/-- The parse error message format of the source:
`Invalid number of seperators 'SEP' on line: 'LINE'!`. -/
def errMsg (sep : Char) (line : Str) : Str :=
  "Invalid number of seperators '".toList ++ [sep] ++
    "' on line: '".toList ++ line ++ "'!".toList

structure ListItem where
  questions : List Str
  answers : List Str
deriving DecidableEq

/-- The per-line loop of `parse_pairs`: require exactly two fields per line,
trim each field, choose the initial mode by presence of a slash, expand both
fields; the first malformed line aborts with `errMsg`. -/
def parse_lines : List Str → Char → Bool → Except Str (List ListItem)
  | [], _, _ => Except.ok []
  | line :: rest, sep, keep_original =>
    if (splitList line sep).length = 2 then
      (parse_lines rest sep keep_original).map (fun items =>
        { questions :=
            recurse_parts (trim ((splitList line sep).getD 0 []))
              ((trim ((splitList line sep).getD 0 [])).contains '/') 0 keep_original,
          answers :=
            recurse_parts (trim ((splitList line sep).getD 1 []))
              ((trim ((splitList line sep).getD 1 [])).contains '/') 0 keep_original } :: items)
    else Except.error (errMsg sep line)

/-- `parse_pairs` from the source. -/
def parse_pairs (input : Str) (sep : Char) (keep_original : Bool) :
    Except Str (List ListItem) :=
  parse_lines (rustLines input) sep keep_original

/-- The Combiner's answer-appending loop: push each lowercased answer unless
it is already present in the stored value sequence. -/
def addAnswers (values : List Str) (answers : List Str) : List Str :=
  answers.foldl (fun vs a => if toLowerStr a ∈ vs then vs else vs ++ [toLowerStr a]) values

/-- Association-list lookup (modelling `HashMap::get`). -/
def alookup : List (Str × List Str) → Str → Option (List Str)
  | [], _ => none
  | kv :: m, key => if kv.1 = key then some kv.2 else alookup m key

/-- Association-list update of one key's value (modelling in-place mutation
through `HashMap::get_mut`). -/
def aupdate : List (Str × List Str) → Str → List Str → List (Str × List Str)
  | [], _, _ => []
  | kv :: m, key, nv => if kv.1 = key then (kv.1, nv) :: m else kv :: aupdate m key nv

/-- Processing of one question variant of one item (the body of the
Combiner's loop over `item.questions`). -/
def combine_question (answers : List Str) (m : List (Str × List Str)) (q : Str) :
    List (Str × List Str) :=
  match alookup m (toLowerStr q) with
  | some values => aupdate m (toLowerStr q) (addAnswers values answers)
  | none => m ++ [(toLowerStr q, answers.map toLowerStr)]

/-- Processing of one parsed item. -/
def combine_item (m : List (Str × List Str)) (item : ListItem) :
    List (Str × List Str) :=
  item.questions.foldl (combine_question item.answers) m

/-- The Combiner (the accumulation loop of `main`); the `HashMap` is modelled
as an association list in key-insertion order. -/
def combine (items : List ListItem) : List (Str × List Str) :=
  items.foldl combine_item []

/-- Character-code lexicographic order on strings, modelling the `Ord`
instance of Rust `String` (byte order; identical on ASCII). -/
def strLe : Str → Str → Bool
  | [], _ => true
  | _ :: _, [] => false
  | a :: as, b :: bs =>
    if a < b then true
    else if b < a then false
    else strLe as bs

/-- The sort comparator of the source: compare lowercased keys. -/
def pairLe (a b : Str × List Str) : Prop :=
  strLe (toLowerStr a.1) (toLowerStr b.1) = true

instance : DecidableRel pairLe := fun a b => instDecidableEqBool _ _

/-- The sorting step of `main` (`sort_by` with lowercased-key comparison),
modelled by a stable insertion sort. -/
def sorted_results (m : List (Str × List Str)) : List (Str × List Str) :=
  List.insertionSort pairLe m

/-- The answer-joining loop of `main`: values separated by a slash divider. -/
def joinVals : List Str → Str
  | [] => []
  | [v] => v
  | v :: rest => v ++ " / ".toList ++ joinVals rest

/-- One output line: the key, the separator with one space on each side, the
joined values, and a newline. -/
def formatLine (sep : Char) (kv : Str × List Str) : Str :=
  kv.1 ++ [' ', sep, ' '] ++ joinVals kv.2 ++ ['\n']

/-- The Sorter/Formatter: sort, format every entry, concatenate. -/
def sort_format (m : List (Str × List Str)) (sep : Char) : Str :=
  ((sorted_results m).map (formatLine sep)).flatten

/-- The whole pipeline of `main` between reading the input text and writing
the output text. -/
def pipeline (input : Str) (sep : Char) (keep_original : Bool) : Except Str Str :=
  (parse_pairs input sep keep_original).map (fun items => sort_format (combine items) sep)

/-- Signed parenthesis contribution of one character. -/
def charBal (c : Char) : Int := if c = '(' then 1 else if c = ')' then -1 else 0

/-- Parenthesis balance of a string: openers minus closers. -/
def balance (s : Str) : Int := (s.map charBal).sum

/-- Specification of the slash split points (written from the spec, for the
refinement proof of C6): the positions holding a slash whose preceding prefix
is parenthesis-balanced, in increasing order. -/
def depthZeroSlashPositions (input : Str) : List Nat :=
  (List.range input.length).filter
    (fun n => decide (input[n]? = some '/' ∧ balance (input.take n) = 0))

/-! ## Basic lemmas about lowercasing and the string order -/

theorem toLowerChar_toNat (c : Char) (h1 : 65 ≤ c.toNat) (h2 : c.toNat ≤ 90) :
    (Char.ofNat (c.toNat + 32)).toNat = c.toNat + 32 := by
  have hv : (c.toNat + 32).isValidChar := Or.inl (by omega)
  rw [Char.ofNat, dif_pos hv]
  simp [Char.ofNatAux, Char.toNat, UInt32.toNat]

theorem toLowerChar_idem (c : Char) : toLowerChar (toLowerChar c) = toLowerChar c := by
  by_cases h : 65 ≤ c.toNat ∧ c.toNat ≤ 90
  · have hfix : toLowerChar c = Char.ofNat (c.toNat + 32) := by
      rw [toLowerChar, if_pos h]
    rw [hfix, toLowerChar, if_neg (by rw [toLowerChar_toNat c h.1 h.2]; omega)]
  · have hfix : toLowerChar c = c := by rw [toLowerChar, if_neg h]
    rw [hfix, hfix]

theorem toLowerStr_idem (s : Str) : toLowerStr (toLowerStr s) = toLowerStr s := by
  rw [toLowerStr, toLowerStr, List.map_map]
  exact List.map_congr_left (fun a _ => toLowerChar_idem a)

theorem mem_map_toLower_fixed {v : Str} {as : List Str} (h : v ∈ as.map toLowerStr) :
    toLowerStr v = v := by
  rcases List.mem_map.mp h with ⟨a, _, rfl⟩
  exact toLowerStr_idem a

theorem strLe_refl (a : Str) : strLe a a = true := by
  induction a with
  | nil => rfl
  | cons x xs ih => simp [strLe, lt_irrefl, ih]

theorem strLe_total (a b : Str) : strLe a b = true ∨ strLe b a = true := by
  induction a generalizing b with
  | nil => left; rfl
  | cons x xs ih =>
    cases b with
    | nil => right; rfl
    | cons y ys =>
      rcases lt_trichotomy x y with h | h | h
      · left; simp [strLe, h]
      · subst h
        simp only [strLe, if_neg (lt_irrefl x)]
        exact ih ys
      · right; simp [strLe, h]

theorem strLe_trans (a b c : Str) (hab : strLe a b = true) (hbc : strLe b c = true) :
    strLe a c = true := by
  induction a generalizing b c with
  | nil => rfl
  | cons x xs ih =>
    cases b with
    | nil => simp [strLe] at hab
    | cons y ys =>
      cases c with
      | nil => simp [strLe] at hbc
      | cons z zs =>
        rcases lt_trichotomy x y with h1 | h1 | h1
        · rcases lt_trichotomy y z with h2 | h2 | h2
          · simp [strLe, lt_trans h1 h2]
          · subst h2; simp [strLe, h1]
          · simp [strLe, h2, asymm h2] at hbc
        · subst h1
          simp only [strLe, if_neg (lt_irrefl x)] at hab
          rcases lt_trichotomy x z with h2 | h2 | h2
          · simp [strLe, h2]
          · subst h2
            simp only [strLe, if_neg (lt_irrefl x)] at hbc ⊢
            exact ih ys zs hab hbc
          · simp [strLe, h2, asymm h2] at hbc
        · simp [strLe, h1, asymm h1] at hab

theorem strLe_antisymm (a b : Str) (hab : strLe a b = true) (hba : strLe b a = true) :
    a = b := by
  induction a generalizing b with
  | nil =>
    cases b with
    | nil => rfl
    | cons y ys => simp [strLe] at hba
  | cons x xs ih =>
    cases b with
    | nil => simp [strLe] at hab
    | cons y ys =>
      rcases lt_trichotomy x y with h1 | h1 | h1
      · simp [strLe, h1, asymm h1] at hba
      · subst h1
        simp only [strLe, if_neg (lt_irrefl x)] at hab hba
        rw [ih ys hab hba]
      · simp [strLe, h1, asymm h1] at hab

instance : IsTotal (Str × List Str) pairLe :=
  ⟨fun a b => strLe_total (toLowerStr a.1) (toLowerStr b.1)⟩

instance : IsTrans (Str × List Str) pairLe :=
  ⟨fun a b c => strLe_trans (toLowerStr a.1) (toLowerStr b.1) (toLowerStr c.1)⟩

/-! ## Unfolding and fuel lemmas for the variant expander -/

theorem recurse_parts_fuel_base (f : Nat) (input : Str) (slash : Bool) (depth : Nat)
    (k : Bool) (h : (divide_mode slash input).length = 1 ∨ MAX_DEPTH ≤ depth) :
    recurse_parts_fuel f input slash depth k = divide_mode slash input := by
  cases f with
  | zero => rfl
  | succ f => simp only [recurse_parts_fuel, if_pos h]

theorem recurse_parts_unfold (input : Str) (slash : Bool) (depth : Nat)
    (keep_original : Bool) :
    recurse_parts input slash depth keep_original =
      if (divide_mode slash input).length = 1 ∨ MAX_DEPTH ≤ depth then
        divide_mode slash input
      else
        ((divide_mode slash input).map
            (fun p => recurse_parts p (!slash) (depth + 1) keep_original)).flatten
          ++ (if depth = 0 then (if keep_original then [input] else []) else [input]) := by
  by_cases h : (divide_mode slash input).length = 1 ∨ MAX_DEPTH ≤ depth
  · rw [if_pos h, recurse_parts, recurse_parts_fuel_base _ _ _ _ _ h]
  · have hd : depth < MAX_DEPTH := by
      rcases Nat.lt_or_ge depth MAX_DEPTH with h1 | h1
      · exact h1
      · exact absurd (Or.inr h1) h
    rw [if_neg h, recurse_parts]
    have h2 : MAX_DEPTH + 1 - depth = (MAX_DEPTH - depth) + 1 := by omega
    rw [h2]
    simp only [recurse_parts_fuel, if_neg h]
    have hmap : ∀ p ∈ divide_mode slash input,
        recurse_parts_fuel (MAX_DEPTH - depth) p (!slash) (depth + 1) keep_original =
          recurse_parts p (!slash) (depth + 1) keep_original := by
      intro p _
      rw [recurse_parts]
      congr 1
      omega
    rw [List.map_congr_left hmap]

theorem recurse_parts_fuel_irrel :
    ∀ (f : Nat) (input : Str) (slash : Bool) (depth : Nat) (k : Bool),
    MAX_DEPTH - depth ≤ f →
    recurse_parts_fuel f input slash depth k = recurse_parts input slash depth k := by
  intro f
  induction f with
  | zero =>
    intro input slash depth k hf
    have hd : MAX_DEPTH ≤ depth := by omega
    rw [recurse_parts_unfold, if_pos (Or.inr hd)]
    rfl
  | succ f ih =>
    intro input slash depth k hf
    by_cases h : (divide_mode slash input).length = 1 ∨ MAX_DEPTH ≤ depth
    · rw [recurse_parts_fuel_base _ _ _ _ _ h, recurse_parts_unfold, if_pos h]
    · have hd : depth < MAX_DEPTH := by
        rcases Nat.lt_or_ge depth MAX_DEPTH with h1 | h1
        · exact h1
        · exact absurd (Or.inr h1) h
      rw [recurse_parts_unfold, if_neg h]
      simp only [recurse_parts_fuel, if_neg h]
      have hmap : ∀ p ∈ divide_mode slash input,
          recurse_parts_fuel f p (!slash) (depth + 1) k =
            recurse_parts p (!slash) (depth + 1) k := by
        intro p _
        exact ih p (!slash) (depth + 1) k (by omega)
      rw [List.map_congr_left hmap]

/-! ## The slash divider splits exactly at balanced-prefix slashes -/

theorem balance_cons (c : Char) (l : List Char) :
    balance (c :: l) = charBal c + balance l := by
  simp [balance]

theorem slash_scan_eq : ∀ (cs : List Char) (n : Nat) (d : Int),
    slash_scan cs n d =
      ((List.range cs.length).filter
          (fun i => decide (cs[i]? = some '/' ∧ d + balance (cs.take i) = 0))).map (n + ·) := by
  intro cs
  induction cs with
  | nil => intro n d; rfl
  | cons c cs ih =>
    intro n d
    have hmapfilter : ∀ e : Int,
        List.filter
            (fun i => decide ((c :: cs)[i]? = some '/' ∧ e + balance ((c :: cs).take i) = 0))
            (List.map Nat.succ (List.range cs.length)) =
          List.map Nat.succ
            (List.filter
              (fun i => decide (cs[i]? = some '/' ∧ (e + charBal c) + balance (cs.take i) = 0))
              (List.range cs.length)) := by
      intro e
      rw [List.filter_map]
      congr 1
      apply List.filter_congr
      intro i _
      simp only [Function.comp_apply]
      rw [decide_eq_decide]
      simp only [List.getElem?_cons_succ, List.take_succ_cons, balance_cons]
      constructor
      · rintro ⟨ha, hb⟩; exact ⟨ha, by omega⟩
      · rintro ⟨ha, hb⟩; exact ⟨ha, by omega⟩
    have hshift : ∀ l : List Nat,
        List.map (fun i => n + i) (List.map Nat.succ l) =
          List.map (fun i => (n + 1) + i) l := by
      intro l
      rw [List.map_map]
      exact List.map_congr_left (fun a _ => by simp only [Function.comp_apply]; omega)
    by_cases hc1 : c = '('
    · subst hc1
      have hcond : (decide ((('(' : Char) :: cs)[0]? = some '/' ∧
          d + balance ((('(' : Char) :: cs).take 0) = 0)) = false := by simp
      have hL : slash_scan ('(' :: cs) n d = slash_scan cs (n + 1) (d + 1) := by
        simp [slash_scan]
      rw [hL, ih (n + 1) (d + 1), List.length_cons, List.range_succ_eq_map,
        List.filter_cons, hcond, if_neg Bool.false_ne_true, hmapfilter d, hshift]
      have hcb : charBal '(' = 1 := rfl
      rw [hcb]
    · by_cases hc2 : c = ')'
      · subst hc2
        have hcond : (decide (((')' : Char) :: cs)[0]? = some '/' ∧
            d + balance (((')' : Char) :: cs).take 0) = 0)) = false := by simp
        have hL : slash_scan (')' :: cs) n d = slash_scan cs (n + 1) (d - 1) := by
          simp [slash_scan]
        rw [hL, ih (n + 1) (d - 1), List.length_cons, List.range_succ_eq_map,
          List.filter_cons, hcond, if_neg Bool.false_ne_true, hmapfilter d, hshift]
        have hcb : charBal ')' = -1 := rfl
        rw [hcb]
        congr 1
      · by_cases hc3 : d = 0 ∧ c = '/'
        · rcases hc3 with ⟨hd, hc⟩
          subst hc hd
          have hcond : (decide ((('/' : Char) :: cs)[0]? = some '/' ∧
              (0 : Int) + balance ((('/' : Char) :: cs).take 0) = 0)) = true := by
            simp [balance]
          have hL : slash_scan ('/' :: cs) n 0 = n :: slash_scan cs (n + 1) 0 := by
            simp [slash_scan]
          rw [hL, ih (n + 1) 0, List.length_cons, List.range_succ_eq_map,
            List.filter_cons, hcond, if_pos rfl, List.map_cons, hmapfilter 0, hshift]
          have hcb : charBal '/' = 0 := rfl
          rw [hcb]
          refine List.cons_eq_cons.mpr ⟨by omega, ?_⟩
          congr 1
        · have hcond : (decide ((c :: cs)[0]? = some '/' ∧
              d + balance ((c :: cs).take 0) = 0)) = false := by
            simp only [List.getElem?_cons_zero, List.take_zero, decide_eq_false_iff_not]
            rintro ⟨ha, hb⟩
            have hc : c = '/' := Option.some_inj.mp ha
            have hz : balance ([] : Str) = 0 := rfl
            exact hc3 ⟨by omega, hc⟩
          have hL : slash_scan (c :: cs) n d = slash_scan cs (n + 1) d := by
            rw [slash_scan.eq_def]
            simp only [if_neg hc1, if_neg hc2, if_neg hc3]
          rw [hL, ih (n + 1) d, List.length_cons, List.range_succ_eq_map,
            List.filter_cons, hcond, if_neg Bool.false_ne_true, hmapfilter d, hshift]
          have hcb : charBal c = 0 := by rw [charBal, if_neg hc1, if_neg hc2]
          rw [hcb]
          congr 1
          apply List.filter_congr
          intro i _
          simp only [decide_eq_decide]
          constructor
          · rintro ⟨ha, hb⟩; exact ⟨ha, by omega⟩
          · rintro ⟨ha, hb⟩; exact ⟨ha, by omega⟩

theorem divide_slash_eq_spec (input : Str) :
    divide_slash input = divide_string input (depthZeroSlashPositions input) := by
  rw [divide_slash, slash_scan_eq]
  have h1 : ∀ l : List Nat, List.map (fun i => 0 + i) l = l := by
    intro l
    have h2 : List.map (fun i : Nat => 0 + i) l = List.map id l :=
      List.map_congr_left (fun a _ => by simp)
    rw [h2, List.map_id]
  rw [h1]
  congr 1
  rw [depthZeroSlashPositions]
  apply List.filter_congr
  intro i _
  simp only [decide_eq_decide]
  constructor
  · rintro ⟨ha, hb⟩; exact ⟨ha, by omega⟩
  · rintro ⟨ha, hb⟩; exact ⟨ha, by omega⟩

/-! ## Combiner invariants -/

theorem addAnswers_nil (vs : List Str) : addAnswers vs [] = vs := rfl

theorem addAnswers_cons (vs : List Str) (a : Str) (as : List Str) :
    addAnswers vs (a :: as) =
      addAnswers (if toLowerStr a ∈ vs then vs else vs ++ [toLowerStr a]) as := rfl

theorem addAnswers_nodup : ∀ (as : List Str) (vs : List Str),
    vs.Nodup → (addAnswers vs as).Nodup := by
  intro as
  induction as with
  | nil => intro vs h; exact h
  | cons a as ih =>
    intro vs h
    rw [addAnswers_cons]
    by_cases hmem : toLowerStr a ∈ vs
    · rw [if_pos hmem]; exact ih vs h
    · rw [if_neg hmem]
      refine ih _ (List.nodup_append.mpr ⟨h, List.nodup_singleton _, ?_⟩)
      intro x hx hx1
      rw [List.mem_singleton] at hx1
      subst hx1
      exact hmem hx

theorem addAnswers_lower : ∀ (as : List Str) (vs : List Str),
    (∀ v ∈ vs, toLowerStr v = v) → ∀ v ∈ addAnswers vs as, toLowerStr v = v := by
  intro as
  induction as with
  | nil => intro vs h; exact h
  | cons a as ih =>
    intro vs h
    rw [addAnswers_cons]
    by_cases hmem : toLowerStr a ∈ vs
    · rw [if_pos hmem]; exact ih vs h
    · rw [if_neg hmem]
      refine ih _ (fun v hv => ?_)
      rcases List.mem_append.mp hv with h1 | h1
      · exact h v h1
      · rw [List.mem_singleton] at h1
        subst h1
        exact toLowerStr_idem a

theorem alookup_mem : ∀ (m : List (Str × List Str)) (k : Str) (v : List Str),
    alookup m k = some v → (k, v) ∈ m := by
  intro m
  induction m with
  | nil => intro k v h; simp [alookup] at h
  | cons kv m ih =>
    intro k v h
    rw [alookup] at h
    by_cases hk : kv.1 = k
    · rw [if_pos hk] at h
      have hv : v = kv.2 := (Option.some_inj.mp h).symm
      subst hv hk
      exact List.mem_cons_self _ _
    · rw [if_neg hk] at h
      exact List.mem_cons_of_mem _ (ih k v h)

theorem alookup_none : ∀ (m : List (Str × List Str)) (k : Str),
    alookup m k = none → k ∉ m.map Prod.fst := by
  intro m
  induction m with
  | nil => intro k _ h; simp at h
  | cons kv m ih =>
    intro k h hmem
    rw [alookup] at h
    by_cases hk : kv.1 = k
    · rw [if_pos hk] at h; exact Option.noConfusion h
    · rw [if_neg hk] at h
      rw [List.map_cons, List.mem_cons] at hmem
      rcases hmem with h1 | h1
      · exact hk h1.symm
      · exact ih k h h1

theorem aupdate_mem : ∀ (m : List (Str × List Str)) (k : Str) (nv : List Str),
    ∀ kv ∈ aupdate m k nv, kv ∈ m ∨ kv = (k, nv) := by
  intro m
  induction m with
  | nil => intro k nv kv h; simp [aupdate] at h
  | cons x m ih =>
    intro k nv kv h
    rw [aupdate] at h
    by_cases hk : x.1 = k
    · rw [if_pos hk] at h
      rcases List.mem_cons.mp h with h1 | h1
      · right; rw [h1, hk]
      · left; exact List.mem_cons_of_mem _ h1
    · rw [if_neg hk] at h
      rcases List.mem_cons.mp h with h1 | h1
      · left; rw [h1]; exact List.mem_cons_self _ _
      · rcases ih k nv kv h1 with h2 | h2
        · left; exact List.mem_cons_of_mem _ h2
        · right; exact h2

theorem aupdate_keys : ∀ (m : List (Str × List Str)) (k : Str) (nv : List Str),
    (aupdate m k nv).map Prod.fst = m.map Prod.fst := by
  intro m
  induction m with
  | nil => intro k nv; rfl
  | cons x m ih =>
    intro k nv
    rw [aupdate]
    by_cases hk : x.1 = k
    · rw [if_pos hk]; rfl
    · rw [if_neg hk, List.map_cons, List.map_cons, ih]

/-- Unconditional combiner invariant: keys are duplicate-free, and every
stored key and value is lowercase-fixed. -/
def CombInv (m : List (Str × List Str)) : Prop :=
  (m.map Prod.fst).Nodup ∧
    ∀ kv ∈ m, toLowerStr kv.1 = kv.1 ∧ ∀ v ∈ kv.2, toLowerStr v = v

theorem combInv_nil : CombInv [] := by
  constructor
  · exact List.nodup_nil
  · intro kv h; exact absurd h (List.not_mem_nil kv)

theorem combInv_combine_question (answers : List Str) (m : List (Str × List Str))
    (q : Str) (h : CombInv m) : CombInv (combine_question answers m q) := by
  rw [combine_question]
  cases hlook : alookup m (toLowerStr q) with
  | some values =>
    constructor
    · rw [aupdate_keys]; exact h.1
    · intro kv hkv
      rcases aupdate_mem m (toLowerStr q) (addAnswers values answers) kv hkv with h1 | h1
      · exact h.2 kv h1
      · subst h1
        refine ⟨toLowerStr_idem q, ?_⟩
        exact addAnswers_lower answers values
          ((h.2 (toLowerStr q, values) (alookup_mem m (toLowerStr q) values hlook)).2)
  | none =>
    constructor
    · rw [List.map_append, List.map_singleton]
      refine List.nodup_append.mpr ⟨h.1, List.nodup_singleton _, ?_⟩
      intro x hx hx1
      rw [List.mem_singleton] at hx1
      subst hx1
      exact alookup_none m (toLowerStr q) hlook hx
    · intro kv hkv
      rcases List.mem_append.mp hkv with h1 | h1
      · exact h.2 kv h1
      · rw [List.mem_singleton] at h1
        subst h1
        exact ⟨toLowerStr_idem q, fun v hv => mem_map_toLower_fixed hv⟩

theorem combInv_foldl_questions (answers : List Str) :
    ∀ (qs : List Str) (m : List (Str × List Str)), CombInv m →
    CombInv (qs.foldl (combine_question answers) m) := by
  intro qs
  induction qs with
  | nil => intro m h; exact h
  | cons q qs ih =>
    intro m h
    rw [List.foldl_cons]
    exact ih _ (combInv_combine_question answers m q h)

theorem combInv_combine_item (m : List (Str × List Str)) (item : ListItem)
    (h : CombInv m) : CombInv (combine_item m item) :=
  combInv_foldl_questions item.answers item.questions m h

theorem combInv_combine (items : List ListItem) : CombInv (combine items) := by
  rw [combine]
  have haux : ∀ (its : List ListItem) (m : List (Str × List Str)), CombInv m →
      CombInv (its.foldl combine_item m) := by
    intro its
    induction its with
    | nil => intro m h; exact h
    | cons it its ih =>
      intro m h
      rw [List.foldl_cons]
      exact ih _ (combInv_combine_item m it h)
  exact haux items [] combInv_nil

/-- Conditional combiner invariant: if every inserted answer list is
duplicate-free after lowercasing, the stored value sequences stay
duplicate-free. -/
theorem valuesNodup_combine_question (answers : List Str) (m : List (Str × List Str))
    (q : Str) (h : ∀ kv ∈ m, (kv.2 : List Str).Nodup)
    (hans : (answers.map toLowerStr).Nodup) :
    ∀ kv ∈ combine_question answers m q, (kv.2 : List Str).Nodup := by
  rw [combine_question]
  cases hlook : alookup m (toLowerStr q) with
  | some values =>
    intro kv hkv
    rcases aupdate_mem m (toLowerStr q) (addAnswers values answers) kv hkv with h1 | h1
    · exact h kv h1
    · subst h1
      exact addAnswers_nodup answers values
        (h (toLowerStr q, values) (alookup_mem m (toLowerStr q) values hlook))
  | none =>
    intro kv hkv
    rcases List.mem_append.mp hkv with h1 | h1
    · exact h kv h1
    · rw [List.mem_singleton] at h1
      subst h1
      exact hans

theorem valuesNodup_combine (items : List ListItem)
    (hitems : ∀ item ∈ items, ((item.answers.map toLowerStr : List Str)).Nodup) :
    ∀ kv ∈ combine items, (kv.2 : List Str).Nodup := by
  rw [combine]
  have haux : ∀ (its : List ListItem) (m : List (Str × List Str)),
      (∀ item ∈ its, ((item.answers.map toLowerStr : List Str)).Nodup) →
      (∀ kv ∈ m, (kv.2 : List Str).Nodup) →
      ∀ kv ∈ its.foldl combine_item m, (kv.2 : List Str).Nodup := by
    intro its
    induction its with
    | nil => intro m _ hm; exact hm
    | cons it its ih =>
      intro m hits hm
      rw [List.foldl_cons]
      refine ih _ (fun item hi => hits item (List.mem_cons_of_mem _ hi)) ?_
      have hit : ((it.answers.map toLowerStr : List Str)).Nodup :=
        hits it (List.mem_cons_self _ _)
      rw [combine_item]
      have hq : ∀ (qs : List Str) (m0 : List (Str × List Str)),
          (∀ kv ∈ m0, (kv.2 : List Str).Nodup) →
          ∀ kv ∈ qs.foldl (combine_question it.answers) m0, (kv.2 : List Str).Nodup := by
        intro qs
        induction qs with
        | nil => intro m0 hm0; exact hm0
        | cons q qs ihq =>
          intro m0 hm0
          rw [List.foldl_cons]
          exact ihq _ (valuesNodup_combine_question it.answers m0 q hm0 hit)
      exact hq it.questions m hm
  exact haux items [] hitems (fun kv h => absurd h (List.not_mem_nil kv))

/-! ## Sorting and formatting lemmas -/

theorem sorted_pairLe_unique : ∀ (l1 l2 : List (Str × List Str)),
    l1.Perm l2 → l1.Pairwise pairLe → l2.Pairwise pairLe →
    ((l2.map Prod.fst).Nodup) → (∀ kv ∈ l2, toLowerStr kv.1 = kv.1) → l1 = l2 := by
  intro l1
  induction l1 with
  | nil =>
    intro l2 hp _ _ _ _
    exact hp.nil_eq
  | cons a t1 ih =>
    intro l2 hp h1 h2 hnd hfixed
    cases l2 with
    | nil =>
      have := hp.eq_nil
      simp at this
    | cons b t2 =>
      have hab : a = b := by
        have ha2 : a ∈ b :: t2 := hp.mem_iff.mp (List.mem_cons_self a t1)
        have hb1 : b ∈ a :: t1 := hp.symm.mem_iff.mp (List.mem_cons_self b t2)
        rcases List.mem_cons.mp ha2 with h | hat2
        · exact h
        rcases List.mem_cons.mp hb1 with h | hbt1
        · exact h.symm
        have hle1 : pairLe a b := (List.pairwise_cons.mp h1).1 b hbt1
        have hle2 : pairLe b a := (List.pairwise_cons.mp h2).1 a hat2
        have hkeylow : toLowerStr a.1 = toLowerStr b.1 :=
          strLe_antisymm (toLowerStr a.1) (toLowerStr b.1) hle1 hle2
        have hfa : toLowerStr a.1 = a.1 := (hfixed a ha2).symm ▸ (hfixed a ha2)
        have hfb : toLowerStr b.1 = b.1 := hfixed b (List.mem_cons_self b t2)
        have hkey : a.1 = b.1 := by rw [← hfa, ← hfb, hkeylow]
        exfalso
        have hmem : b.1 ∈ t2.map Prod.fst := by
          rw [← hkey]
          exact List.mem_map_of_mem Prod.fst hat2
        have hndc : ((b.1 : Str) :: t2.map Prod.fst).Nodup := by
          rw [List.map_cons] at hnd
          exact hnd
        exact (List.nodup_cons.mp hndc).1 hmem
      subst hab
      have ht : t1 = t2 := by
        refine ih t2 hp.cons_inv (List.pairwise_cons.mp h1).2 (List.pairwise_cons.mp h2).2
          ?_ (fun kv hkv => hfixed kv (List.mem_cons_of_mem _ hkv))
        have hndc : ((a.1 : Str) :: t2.map Prod.fst).Nodup := by
          rw [List.map_cons] at hnd
          exact hnd
        exact (List.nodup_cons.mp hndc).2
      rw [ht]

theorem sorted_results_pairwise (m : List (Str × List Str)) :
    (sorted_results m).Pairwise pairLe :=
  List.sorted_insertionSort pairLe m

theorem sorted_results_perm (m : List (Str × List Str)) :
    (sorted_results m).Perm m :=
  List.perm_insertionSort pairLe m

theorem sort_format_perm (m1 m2 : List (Str × List Str)) (sep : Char)
    (hperm : m1.Perm m2) (hnd : (m2.map Prod.fst).Nodup)
    (hfixed : ∀ kv ∈ m2, toLowerStr kv.1 = kv.1) :
    sort_format m1 sep = sort_format m2 sep := by
  have hp : (sorted_results m1).Perm (sorted_results m2) :=
    ((sorted_results_perm m1).trans hperm).trans (sorted_results_perm m2).symm
  have hnd2 : ((sorted_results m2).map Prod.fst).Nodup := by
    have hpm : ((sorted_results m2).map Prod.fst).Perm (m2.map Prod.fst) :=
      (sorted_results_perm m2).map Prod.fst
    exact hpm.nodup_iff.mpr hnd
  have hfix2 : ∀ kv ∈ sorted_results m2, toLowerStr kv.1 = kv.1 := fun kv hkv =>
    hfixed kv ((sorted_results_perm m2).mem_iff.mp hkv)
  have heq : sorted_results m1 = sorted_results m2 :=
    sorted_pairLe_unique _ _ hp (sorted_results_pairwise m1) (sorted_results_pairwise m2)
      hnd2 hfix2
  rw [sort_format, sort_format, heq]

theorem joinVals_eq_intercalate : ∀ vs : List Str,
    joinVals vs = List.intercalate (" / ".toList) vs := by
  intro vs
  induction vs with
  | nil => rfl
  | cons v rest ih =>
    cases rest with
    | nil => simp [joinVals, List.intercalate, List.intersperse]
    | cons w t =>
      have hstep : joinVals (v :: w :: t) = v ++ " / ".toList ++ joinVals (w :: t) := rfl
      rw [hstep, ih]
      simp [List.intercalate, List.intersperse]

/-! ## Parser error lemmas -/

theorem parse_lines_first_error : ∀ (ls : List Str) (sep : Char) (keep_original : Bool),
    (∃ l ∈ ls, (splitList l sep).length ≠ 2) →
    ∃ l, l ∈ ls ∧ (splitList l sep).length ≠ 2 ∧
      parse_lines ls sep keep_original = Except.error (errMsg sep l) := by
  intro ls sep k
  induction ls with
  | nil =>
    rintro ⟨l, hl, _⟩
    exact absurd hl (List.not_mem_nil l)
  | cons line rest ih =>
    intro h
    by_cases hline : (splitList line sep).length = 2
    · have hrest : ∃ l ∈ rest, (splitList l sep).length ≠ 2 := by
        rcases h with ⟨l, hl, hno⟩
        rcases List.mem_cons.mp hl with h1 | h1
        · subst h1; exact absurd hline hno
        · exact ⟨l, h1, hno⟩
      rcases ih hrest with ⟨l, hm, hno, heq⟩
      refine ⟨l, List.mem_cons_of_mem _ hm, hno, ?_⟩
      rw [parse_lines, if_pos hline, heq]
      rfl
    · exact ⟨line, List.mem_cons_self _ _, hline, by rw [parse_lines, if_neg hline]⟩

theorem parse_lines_blank_at : ∀ (pre : List Str) (rest : List Str) (sep : Char) (k : Bool),
    (∀ l ∈ pre, (splitList l sep).length = 2) →
    parse_lines (pre ++ ([] : Str) :: rest) sep k = Except.error (errMsg sep []) := by
  intro pre
  induction pre with
  | nil =>
    intro rest sep k _
    rw [List.nil_append, parse_lines, if_neg (by rw [splitList]; simp)]
  | cons p pre ih =>
    intro rest sep k h
    have hp : (splitList p sep).length = 2 := h p (List.mem_cons_self _ _)
    rw [List.cons_append, parse_lines, if_pos hp,
      ih rest sep k (fun l hl => h l (List.mem_cons_of_mem _ hl))]
    rfl

/-! ## Claim theorems -/

/-- C2 (amended): for every string containing neither a slash nor an opening
parenthesis, the expander (initial mode chosen by presence of a slash, any
depth, any retain-original flag) returns exactly one variant, and that
variant is the input string itself, unchanged.  The parenthesis divider does
not trim a splitless input, so the variant equals the trimmed input exactly
when the input is already trimmed, as are the fields the parser passes in. -/
theorem variantExpander_plain_single_variant :
    ∀ (s : Str) (depth : Nat) (keep_original : Bool),
    s.contains '/' = false → s.contains '(' = false →
    recurse_parts s (s.contains '/') depth keep_original = [s] := by
  intro s depth k h1 h2
  rw [h1, recurse_parts_unfold]
  have hp : divide_mode false s = [s] := by
    rw [divide_mode, if_neg (by simp), divide_parenthesis,
      if_neg (by rw [h2]; exact Bool.false_ne_true)]
  rw [hp, if_pos (show ([s] : List Str).length = 1 ∨ MAX_DEPTH ≤ depth from Or.inl rfl)]

/-- C2 counterexample: a string with surrounding whitespace and neither slash
nor opening parenthesis is returned as the single variant unchanged, not
trimmed as the claim states. -/
theorem variantExpander_untrimmed_cex :
    (" a ".toList.contains '/') = false
    ∧ (" a ".toList.contains '(') = false
    ∧ recurse_parts (" a ".toList) (" a ".toList.contains '/') 0 false = [" a ".toList]
    ∧ trim (" a ".toList) = "a".toList
    ∧ recurse_parts (" a ".toList) (" a ".toList.contains '/') 0 false
        ≠ [trim (" a ".toList)] :=
  ⟨by decide, by decide, by decide, by decide, by decide⟩

theorem variantExpander_plain_single_variant_witness :
    ("abc".toList.contains '/' = false) ∧ ("abc".toList.contains '(' = false)
    ∧ recurse_parts ("abc".toList) ("abc".toList.contains '/') 3 true = ["abc".toList] :=
  ⟨by decide, by decide,
    variantExpander_plain_single_variant ("abc".toList) 3 true (by decide) (by decide)⟩

/-- C3: one step of `recurse_parts`: if the active divider returns a single
part or the depth bound is reached, its result is returned with no
recursion; otherwise every part is expanded with the mode flipped at
depth + 1, the sub-results are concatenated in order, and the unsplit input
is appended afterwards — unconditionally when depth > 0, and at depth 0 only
when the retain-original flag is set. -/
theorem variantExpander_recursion_structure :
    ∀ (input : Str) (slash : Bool) (depth : Nat) (keep_original : Bool),
    ((divide_mode slash input).length = 1 ∨ MAX_DEPTH ≤ depth →
      recurse_parts input slash depth keep_original = divide_mode slash input)
    ∧ (¬ ((divide_mode slash input).length = 1 ∨ MAX_DEPTH ≤ depth) →
      recurse_parts input slash depth keep_original =
        ((divide_mode slash input).map
            (fun p => recurse_parts p (!slash) (depth + 1) keep_original)).flatten
          ++ (if 0 < depth then [input]
              else if keep_original then [input] else [])) := by
  intro input slash depth k
  constructor
  · intro h
    rw [recurse_parts_unfold, if_pos h]
  · intro h
    rw [recurse_parts_unfold, if_neg h]
    congr 1
    by_cases hd : depth = 0
    · subst hd
      rw [if_pos rfl, if_neg (lt_irrefl 0)]
    · rw [if_neg hd, if_pos (Nat.pos_of_ne_zero hd)]

theorem variantExpander_recursion_structure_witness :
    ((divide_mode false ("ab".toList)).length = 1 ∨ MAX_DEPTH ≤ 0)
    ∧ recurse_parts ("ab".toList) false 0 true = divide_mode false ("ab".toList)
    ∧ ¬ ((divide_mode true ("a/b".toList)).length = 1 ∨ MAX_DEPTH ≤ 0)
    ∧ recurse_parts ("a/b".toList) true 0 true =
        ((divide_mode true ("a/b".toList)).map
            (fun p => recurse_parts p (!true) (0 + 1) true)).flatten
          ++ (if 0 < 0 then ["a/b".toList] else if true then ["a/b".toList] else []) :=
  ⟨Or.inl (by decide),
    (variantExpander_recursion_structure ("ab".toList) false 0 true).1 (Or.inl (by decide)),
    by decide,
    (variantExpander_recursion_structure ("a/b".toList) true 0 true).2 (by decide)⟩

/-- C4: the expander's recursion is depth-bounded: any fuel of at least
`MAX_DEPTH - depth` yields the same value as `recurse_parts`, so the call
tree never descends past the depth bound; and once `depth ≥ MAX_DEPTH` the
active divider's result is returned with no further recursion (the
expansion is truncated at the bound instead of recursing without bound). -/
theorem variantExpander_depth_bounded :
    ∀ (fuel : Nat) (input : Str) (slash : Bool) (depth : Nat) (keep_original : Bool),
    (MAX_DEPTH - depth ≤ fuel →
      recurse_parts_fuel fuel input slash depth keep_original =
        recurse_parts input slash depth keep_original)
    ∧ (MAX_DEPTH ≤ depth →
      recurse_parts input slash depth keep_original = divide_mode slash input) := by
  intro fuel input slash depth k
  constructor
  · exact recurse_parts_fuel_irrel fuel input slash depth k
  · intro h
    rw [recurse_parts_unfold, if_pos (Or.inr h)]

theorem variantExpander_depth_bounded_witness :
    (MAX_DEPTH - 0 ≤ 16)
    ∧ recurse_parts_fuel 16 ("a/(b/c)".toList) true 0 false =
        recurse_parts ("a/(b/c)".toList) true 0 false
    ∧ (MAX_DEPTH ≤ 16)
    ∧ recurse_parts ("a/b".toList) true 16 false = divide_mode true ("a/b".toList) :=
  ⟨by decide,
    (variantExpander_depth_bounded 16 ("a/(b/c)".toList) true 0 false).1 (by decide),
    by decide,
    (variantExpander_depth_bounded 0 ("a/b".toList) true 16 false).2 (by decide)⟩

/-- C6: the slash divider splits exactly at the slashes whose preceding
prefix is parenthesis-balanced (depth zero), returning the trimmed
substrings between the split points in order; with no split point it
returns the trimmed input as a single-element sequence; in particular
`a(b/c)` yields the single part `a(b/c)`. -/
theorem alternativeDivider_depth_zero_split :
    ∀ input : Str,
    divide_slash input = divide_string input (depthZeroSlashPositions input)
    ∧ (depthZeroSlashPositions input = [] → divide_slash input = [trim input])
    ∧ divide_slash ("a(b/c)".toList) = ["a(b/c)".toList] := by
  intro input
  refine ⟨divide_slash_eq_spec input, fun h => ?_, by decide⟩
  rw [divide_slash_eq_spec input, h]
  have h2 : divide_string input [] = [trim (strSlice input 0 input.length)] := rfl
  rw [h2]
  simp only [strSlice, List.take_length, List.drop_zero]

theorem alternativeDivider_depth_zero_split_witness :
    depthZeroSlashPositions ("a(b/c)".toList) = []
    ∧ divide_slash ("a(b/c)".toList) = [trim ("a(b/c)".toList)] :=
  ⟨by decide, (alternativeDivider_depth_zero_split ("a(b/c)".toList)).2.1 (by decide)⟩

/-- C7: on input containing an opening parenthesis the parenthesis divider
returns exactly two variants — the original string first, then the original
with all recorded top-level groups removed and trimmed — regardless of how
many top-level groups exist; without an opening parenthesis it returns the
input unchanged as a single-element sequence; `a(b)` yields
`[a(b), a]` and the two-group input `a(b)c(d)` yields `[a(b)c(d), ac]`. -/
theorem parentheticalDivider_two_variants :
    ∀ input : Str,
    (input.contains '(' = true →
      divide_parenthesis input =
        [input, trim (takeout_string input (paren_scan input 0 0 0))])
    ∧ (input.contains '(' = false → divide_parenthesis input = [input])
    ∧ divide_parenthesis ("a(b)".toList) = ["a(b)".toList, "a".toList]
    ∧ divide_parenthesis ("a(b)c(d)".toList) = ["a(b)c(d)".toList, "ac".toList] := by
  intro input
  refine ⟨fun h => ?_, fun h => ?_, by decide, by decide⟩
  · rw [divide_parenthesis, if_pos h]
  · rw [divide_parenthesis, if_neg (by rw [h]; exact Bool.false_ne_true)]

theorem parentheticalDivider_two_variants_witness :
    ("x(y)".toList.contains '(' = true)
    ∧ divide_parenthesis ("x(y)".toList) =
        ["x(y)".toList,
          trim (takeout_string ("x(y)".toList) (paren_scan ("x(y)".toList) 0 0 0))]
    ∧ ("xy".toList.contains '(' = false)
    ∧ divide_parenthesis ("xy".toList) = ["xy".toList] :=
  ⟨by decide, (parentheticalDivider_two_variants ("x(y)".toList)).1 (by decide),
    by decide, (parentheticalDivider_two_variants ("xy".toList)).2.1 (by decide)⟩

/-- C5: if some line of the input does not split into exactly two fields on
the separator, the parser fails with the error message naming the separator
and (the first) such line, and returns no partial results. -/
theorem pairParser_malformed_line_aborts :
    ∀ (input : Str) (sep : Char) (keep_original : Bool),
    (∃ l ∈ rustLines input, (splitList l sep).length ≠ 2) →
    (∃ l, l ∈ rustLines input ∧ (splitList l sep).length ≠ 2 ∧
      parse_pairs input sep keep_original = Except.error (errMsg sep l))
    ∧ ∀ items, parse_pairs input sep keep_original ≠ Except.ok items := by
  intro input sep k h
  rcases parse_lines_first_error (rustLines input) sep k h with ⟨l, hm, hno, heq⟩
  have hpp : parse_pairs input sep k = Except.error (errMsg sep l) := by
    unfold parse_pairs
    exact heq
  refine ⟨⟨l, hm, hno, hpp⟩, ?_⟩
  intro items hok
  rw [hpp] at hok
  exact Except.noConfusion hok

theorem pairParser_malformed_line_aborts_witness :
    (∃ l ∈ rustLines ("a=b=c".toList), (splitList l '=').length ≠ 2)
    ∧ ((∃ l, l ∈ rustLines ("a=b=c".toList) ∧ (splitList l '=').length ≠ 2 ∧
        parse_pairs ("a=b=c".toList) '=' false = Except.error (errMsg '=' l))
      ∧ ∀ items, parse_pairs ("a=b=c".toList) '=' false ≠ Except.ok items) :=
  ⟨by decide, pairParser_malformed_line_aborts ("a=b=c".toList) '=' false (by decide)⟩

/-- C10: an empty line splits on the separator into a single field, so it
fails the exactly-two-fields requirement: input containing a blank line
never parses successfully (no output at all), and when every line before
the first blank line is well formed, the reported error names the blank
(empty) line itself. -/
theorem pairParser_blank_line_error :
    ∀ (input : Str) (sep : Char) (keep_original : Bool),
    (splitList ([] : Str) sep).length = 1
    ∧ (([] : Str) ∈ rustLines input →
        ∀ items, parse_pairs input sep keep_original ≠ Except.ok items)
    ∧ (∀ pre rest, rustLines input = pre ++ ([] : Str) :: rest →
        (∀ l ∈ pre, (splitList l sep).length = 2) →
        parse_pairs input sep keep_original = Except.error (errMsg sep [])) := by
  intro input sep k
  refine ⟨rfl, fun hmem items hok => ?_, fun pre rest heq hpre => ?_⟩
  · have h : ∃ l ∈ rustLines input, (splitList l sep).length ≠ 2 :=
      ⟨[], hmem, by simp [splitList]⟩
    rcases parse_lines_first_error (rustLines input) sep k h with ⟨l, _, _, herr⟩
    have hpp : parse_pairs input sep k = Except.error (errMsg sep l) := by
      unfold parse_pairs
      exact herr
    rw [hpp] at hok
    exact Except.noConfusion hok
  · unfold parse_pairs
    rw [heq]
    exact parse_lines_blank_at pre rest sep k hpre

theorem pairParser_blank_line_error_witness :
    (([] : Str) ∈ rustLines ("a=b\n\nc=d".toList))
    ∧ (rustLines ("a=b\n\nc=d".toList) = ["a=b".toList] ++ ([] : Str) :: ["c=d".toList])
    ∧ (∀ l ∈ (["a=b".toList] : List Str), (splitList l '=').length = 2)
    ∧ parse_pairs ("a=b\n\nc=d".toList) '=' false = Except.error (errMsg '=' []) :=
  ⟨by decide, by decide, by decide,
    (pairParser_blank_line_error ("a=b\n\nc=d".toList) '=' false).2.2
      ["a=b".toList] ["c=d".toList] (by decide) (by decide)⟩

/-- C1 counterexample: running the pipeline's parser on `q=a/a` yields one
item whose answers are the duplicate pair `a`, `a`; the Combiner's first
insertion stores them without deduplication, so the value sequence for key
`q` contains two case-equal entries, contradicting the claim. -/
theorem combiner_first_insert_duplicate_cex :
    parse_pairs ("q=a/a".toList) '=' false =
      Except.ok [{ questions := [['q']], answers := [['a'], ['a']] }]
    ∧ combine [{ questions := [['q']], answers := [['a'], ['a']] }] =
        [(['q'], [['a'], ['a']])]
    ∧ ¬ ((([['a'], ['a']] : List Str)).Pairwise (fun a b => toLowerStr a ≠ toLowerStr b)) := by
  refine ⟨by rfl, by rfl, fun h => ?_⟩
  exact (List.pairwise_cons.mp h).1 ['a'] (List.mem_cons_self _ _) rfl

/-- C1 (amended): entries appended to an existing key are deduplicated
case-insensitively, and an item whose normalized answers are duplicate-free
keeps every stored value sequence free of case-equal entries; but a key's
first insertion stores the item's normalized answers as they are, without
deduplication, so duplicates inside a single item's answer list survive. -/
theorem combiner_value_dedup_amended :
    ∀ (items : List ListItem) (q : Str) (answers : List Str),
    ((∀ item ∈ items, ((item.answers.map toLowerStr : List Str)).Nodup) →
      ∀ kv ∈ combine items,
        (kv.2 : List Str).Pairwise (fun a b => toLowerStr a ≠ toLowerStr b))
    ∧ combine [{ questions := [q], answers := answers }] =
        [(toLowerStr q, answers.map toLowerStr)] := by
  intro items q answers
  constructor
  · intro hitems kv hkv
    have hnd : (kv.2 : List Str).Nodup := valuesNodup_combine items hitems kv hkv
    have hfix : ∀ v ∈ kv.2, toLowerStr v = v := ((combInv_combine items).2 kv hkv).2
    refine List.Pairwise.imp_of_mem ?_ hnd
    intro a b ha hb hne
    rw [hfix a ha, hfix b hb]
    exact hne
  · rfl

theorem combiner_value_dedup_amended_witness :
    (∀ item ∈ [ListItem.mk [['q']] [['a'], ['b']]],
      ((item.answers.map toLowerStr : List Str)).Nodup)
    ∧ (∀ kv ∈ combine [ListItem.mk [['q']] [['a'], ['b']]],
        (kv.2 : List Str).Pairwise (fun a b => toLowerStr a ≠ toLowerStr b)) :=
  ⟨by decide,
    (combiner_value_dedup_amended [ListItem.mk [['q']] [['a'], ['b']]] [] []).1 (by decide)⟩

/-- C8: the formatter emits the mapping's pairs sorted ascending by
case-insensitive key comparison, each line being the key, the separator with
one space on each side, and the values joined by a spaced slash, followed by
a newline; every key and value stored by the Combiner is lower-cased; and on
the example input the keys `Banana` and `apple` appear as `banana` after
`apple`. -/
theorem sorterFormatter_sorted_lowercase :
    ∀ (m : List (Str × List Str)) (sep : Char) (items : List ListItem),
    (sorted_results m).Pairwise pairLe
    ∧ (sorted_results m).Perm m
    ∧ sort_format m sep =
        ((sorted_results m).map
          (fun kv => kv.1 ++ ' ' :: sep :: ' ' ::
            (List.intercalate (" / ".toList) kv.2 ++ ['\n']))).flatten
    ∧ (∀ kv ∈ combine items, toLowerStr kv.1 = kv.1 ∧ ∀ v ∈ kv.2, toLowerStr v = v)
    ∧ pipeline ("Banana=x\napple=y".toList) '=' false =
        Except.ok ("apple = y\nbanana = x\n".toList) := by
  intro m sep items
  refine ⟨sorted_results_pairwise m, sorted_results_perm m, ?_,
    (combInv_combine items).2, by rfl⟩
  rw [sort_format]
  congr 1
  apply List.map_congr_left
  intro kv _
  simp only [formatLine, joinVals_eq_intercalate]
  simp

theorem sorterFormatter_sorted_lowercase_witness :
    ((((['q'] : Str), ([['a']] : List Str))) ∈ combine [ListItem.mk [['Q']] [['A']]])
    ∧ (toLowerStr ['q'] = ['q'] ∧ ∀ v ∈ ([['a']] : List Str), toLowerStr v = v) :=
  ⟨by decide,
    (sorterFormatter_sorted_lowercase [] '=' [ListItem.mk [['Q']] [['A']]]).2.2.2.1
      (['q'], [['a']]) (by decide)⟩

/-- C9: the pipeline is a pure function of its input text, separator and
retain-original flag (running it twice yields identical output), and the
formatted output is invariant under any permutation of the combined
mapping's entries — the enumeration order of the underlying hash map cannot
influence the final text. -/
theorem pipeline_deterministic :
    ∀ (input : Str) (sep : Char) (keep_original : Bool)
      (items : List ListItem) (m : List (Str × List Str)),
    pipeline input sep keep_original = pipeline input sep keep_original
    ∧ (m.Perm (combine items) → sort_format m sep = sort_format (combine items) sep) := by
  intro input sep k items m
  refine ⟨rfl, fun hperm => ?_⟩
  exact sort_format_perm m (combine items) sep hperm (combInv_combine items).1
    (fun kv hkv => ((combInv_combine items).2 kv hkv).1)

theorem pipeline_deterministic_witness :
    (([(['c'], [['d']]), (['a'], [['b']])] : List (Str × List Str)).Perm
        (combine [ListItem.mk [['a']] [['b']], ListItem.mk [['c']] [['d']]]))
    ∧ sort_format [(['c'], [['d']]), (['a'], [['b']])] '=' =
        sort_format (combine [ListItem.mk [['a']] [['b']], ListItem.mk [['c']] [['d']]]) '=' :=
  ⟨by decide,
    (pipeline_deterministic [] '=' false
      [ListItem.mk [['a']] [['b']], ListItem.mk [['c']] [['d']]]
      [(['c'], [['d']]), (['a'], [['b']])]).2 (by decide)⟩
